import Mathlib

/-!
Shallow embedding of the currency-exchange simulator in src/xchg/exchange.py.

Machine floating-point numbers are modelled by rationals; currencies are
identified by their index in the configured currency list, so the Python
balance dictionary (with the distinguished key cash first, then one key per
currency in configured order) becomes a cash field plus a list of per-currency
amounts.  Market data is a list of close-price series, one per currency, in
the same order.
-/

namespace Xchg

/-- State of the simulator: the private fields of the Python class
(fee in percent, minimum order size, loaded market data, step cursor,
and the balance split into cash and per-currency amounts). -/
structure Exchange where
  fee : ℚ
  min_order_size : ℚ
  market : List (List ℚ)
  current_step : ℕ
  cash : ℚ
  amounts : List ℚ
deriving DecidableEq, Repr

/-- Close price of currency c at the current step:
self.current_candles[currency][close]. -/
def close (e : Exchange) (c : ℕ) : ℚ :=
  (e.market.getD c []).getD e.current_step 0

/-- Exchange.buy: returns the updated state and the result code. -/
def buy (e : Exchange) (c : ℕ) (amount : ℚ) : Exchange × ℕ :=
  let price := close e c
  let without_fee := price * amount
  let with_fee := without_fee * (1 + e.fee / 100)
  let result := (if e.cash < with_fee then 1 else 0)
    + (if without_fee < e.min_order_size then 2 else 0)
  if result = 0 then
    ({ e with
        cash := e.cash - with_fee,
        amounts := e.amounts.set c (e.amounts.getD c 0 + amount) }, 0)
  else
    (e, result)

/-- Exchange.sell: returns the updated state and the result code. -/
def sell (e : Exchange) (c : ℕ) (amount : ℚ) : Exchange × ℕ :=
  let price := close e c
  let without_fee := price * amount
  let with_fee := without_fee * (1 - e.fee / 100)
  let result := (if e.amounts.getD c 0 < amount then 1 else 0)
    + (if without_fee < e.min_order_size then 2 else 0)
  if result = 0 then
    ({ e with
        amounts := e.amounts.set c (e.amounts.getD c 0 - amount),
        cash := e.cash + with_fee }, 0)
  else
    (e, result)

/-- Exchange.next_step: advance the step cursor when strictly before the last
index of the first currency series, else report end of data. -/
def next_step (e : Exchange) : Exchange × ℕ :=
  if e.current_step < (e.market.headD []).length - 1 then
    ({ e with current_step := e.current_step + 1 }, 0)
  else
    (e, 1)

/-- Exchange.capital: cash plus every holding valued at the current close. -/
def capital (e : Exchange) : ℚ :=
  e.cash + ∑ i ∈ Finset.range e.amounts.length, e.amounts.getD i 0 * close e i

/-- Exchange.portfolio as the cash-first weight vector (the Python property
returns the dictionary in insertion order: cash, then each currency). -/
def portfolio (e : Exchange) : List ℚ :=
  e.cash / capital e ::
    (List.range e.amounts.length).map (fun i => e.amounts.getD i 0 * close e i / capital e)

/-- np.sum(np.maximum(cs - p * ts, 0)) for same-length vectors cs, ts. -/
def sumMax (cs ts : List ℚ) (p : ℚ) : ℚ :=
  ((cs.zip ts).map (fun ct => max (ct.1 - p * ct.2) 0)).sum

/-- One recomputation of pvc1 in the fixed-point loop of make_portfolio
(fee here is the fee rate, i.e. the percent parameter divided by 100;
index 0 of each weight vector is cash). -/
def pvcStep (fee : ℚ) (cur tgt : List ℚ) (p : ℚ) : ℚ :=
  (1 - fee * cur.headD 0
    - (2 * fee - fee ^ 2) * sumMax (cur.drop 1) (tgt.drop 1) p)
    / (1 - fee * tgt.headD 0)

/-- The while loop of make_portfolio, with explicit fuel: starting from the
pair (pvc0, pvc1) it returns the final pvc1 once the gap is at most 1e-10,
and none if the fuel runs out first. -/
def pvcLoop (fee : ℚ) (cur tgt : List ℚ) : ℕ → ℚ → ℚ → Option ℚ
  | 0, p0, p1 => if |p1 - p0| ≤ 1 / 10 ^ 10 then some p1 else none
  | fuel + 1, p0, p1 =>
    if |p1 - p0| ≤ 1 / 10 ^ 10 then some p1
    else pvcLoop fee cur tgt fuel p1 (pvcStep fee cur tgt p1)

/-- One step of the sell pass of make_portfolio.  The accumulator carries the
live exchange state, the accumulated result code, and the trace of orders
actually issued (currency index, quantity); the excess is read from the live
balance, as the Python loop reads the mutable balance dictionary. -/
def sellStep (tb : List ℚ) (acc : Exchange × ℕ × List (ℕ × ℚ)) (i : ℕ) :
    Exchange × ℕ × List (ℕ × ℚ) :=
  let amt := acc.1.amounts.getD i 0 - tb.getD i 0
  if 0 < amt then
    let r := sell acc.1 i amt
    (r.1, acc.2.1 + r.2, acc.2.2 ++ [(i, amt)])
  else acc

/-- One step of the buy pass of make_portfolio. -/
def buyStep (tb : List ℚ) (acc : Exchange × ℕ × List (ℕ × ℚ)) (i : ℕ) :
    Exchange × ℕ × List (ℕ × ℚ) :=
  let amt := tb.getD i 0 - acc.1.amounts.getD i 0
  if 0 < amt then
    let r := buy acc.1 i amt
    (r.1, acc.2.1 + r.2, acc.2.2 ++ [(i, amt)])
  else acc

/-- The sell pass: iterate over the non-cash balance keys in order. -/
def sellPass (tb : List ℚ) (e : Exchange) : Exchange × ℕ × List (ℕ × ℚ) :=
  (List.range e.amounts.length).foldl (sellStep tb) (e, 0, [])

/-- The buy pass: iterate over the non-cash balance keys in order. -/
def buyPass (tb : List ℚ) (e : Exchange) : Exchange × ℕ × List (ℕ × ℚ) :=
  (List.range e.amounts.length).foldl (buyStep tb) (e, 0, [])

/-- Exchange.make_portfolio with explicit fuel for the fixed-point loop.
The target portfolio is given as the cash-first weight vector (the Python
code copies the dictionary values into an array in the same order).  Returns
the final state, the aggregate result code, and the trace of issued orders;
none when the fixed-point loop does not converge within the fuel. -/
def make_portfolio (fuel : ℕ) (e : Exchange) (tgt : List ℚ) :
    Option (Exchange × ℕ × List (ℕ × ℚ)) :=
  let fee := e.fee / 100
  let current_portfolio :=
    e.cash :: (List.range e.amounts.length).map (fun i => e.amounts.getD i 0 * close e i)
  let current_portfolio_volume := current_portfolio.sum
  let cur := current_portfolio.map (· / current_portfolio_volume)
  (pvcLoop fee cur tgt fuel 1 (1 - 2 * fee + fee ^ 2)).map (fun pvc =>
    let target_portfolio_volume := current_portfolio_volume * pvc
    let target_balance := (List.range e.amounts.length).map
      (fun i => target_portfolio_volume * tgt.getD (i + 1) 0 / close e i)
    let s := sellPass target_balance e
    let b := buyPass target_balance s.1
    (b.1, (if 0 < s.2.1 + b.2.1 then 1 else 0), s.2.2 ++ b.2.2))

/-- Apply one buy (true) or sell (false) call, keeping the resulting state. -/
def applyTrade (e : Exchange) (t : Bool × ℕ × ℚ) : Exchange :=
  if t.1 then (buy e t.2.1 t.2.2).1 else (sell e t.2.1 t.2.2).1

/-- The fields an order execution never touches, plus preservation of the
balance key set (the length of the amounts list). -/
def Frame (e e' : Exchange) : Prop :=
  e'.fee = e.fee ∧ e'.min_order_size = e.min_order_size ∧ e'.market = e.market ∧
    e'.current_step = e.current_step ∧ e'.amounts.length = e.amounts.length

/-- Concrete state for the C4 witness: no cash and no holdings, so both a buy
of two units and a sell of two units fail. -/
def exC4 : Exchange :=
  { fee := 0, min_order_size := 1, market := [[1]], current_step := 0,
    cash := 0, amounts := [0] }

/-- Concrete state for the C6 witness: one currency priced 3 and minimum
order size 3, so a one-unit order sits exactly on the boundary. -/
def exC6 : Exchange :=
  { fee := 0, min_order_size := 3, market := [[3]], current_step := 0,
    cash := 0, amounts := [0] }

/-- Concrete state for the C8 witness, one step before the end of the data. -/
def exC8a : Exchange :=
  { fee := 0, min_order_size := 0, market := [[5, 7]], current_step := 0,
    cash := 0, amounts := [] }

/-- Concrete state for the C8 witness, at the last valid index. -/
def exC8b : Exchange :=
  { fee := 0, min_order_size := 0, market := [[5, 7]], current_step := 1,
    cash := 0, amounts := [] }

/-- Concrete state for the C9 witness: two currencies, enough cash to buy one
unit of currency 0 and enough of currency 1 to sell two units. -/
def exC9 : Exchange :=
  { fee := 0, min_order_size := 1, market := [[1], [1]], current_step := 0,
    cash := 10, amounts := [0, 5] }

/-- Concrete state with mismatched series lengths: the first series has three
candles while the second has one, and the cursor already sits past the end of
the second series. -/
def exC10a : Exchange :=
  { fee := 0, min_order_size := 0, market := [[0, 0, 0], [0]], current_step := 1,
    cash := 0, amounts := [] }

/-- Concrete state for the C10 witness: first series of length three with the
cursor on its last index, second series shorter. -/
def exC10 : Exchange :=
  { fee := 0, min_order_size := 0, market := [[0, 0, 0], [0]], current_step := 2,
    cash := 0, amounts := [] }


/-- Concrete state for the C1 witness: zero fee, one currency priced 1, one
unit held and one unit of cash. -/
def exC1 : Exchange :=
  { fee := 0, min_order_size := 1, market := [[1]], current_step := 0,
    cash := 1, amounts := [1] }

/-- Concrete state for the C5 witness: 1 percent fee, one currency priced 2. -/
def exC5 : Exchange :=
  { fee := 1, min_order_size := 1, market := [[2]], current_step := 0,
    cash := 10, amounts := [0] }

/-- Trade sequence for the C5 witness: buy one unit, then sell one unit. -/
def tsC5 : List (Bool × ℕ × ℚ) := [(true, 0, 1), (false, 0, 1)]

/-- Concrete state for the C7 witness: zero fee, price 1, ample cash. -/
def exC7 : Exchange :=
  { fee := 0, min_order_size := 1, market := [[1]], current_step := 0,
    cash := 10, amounts := [0] }

/-- Concrete state refuting C3: a tiny but positive fee (1e-9 percent) makes
the fixed-point loop stop immediately at pvc = 1 - 2 fee + fee squared, which
is strictly below 1, so rebalancing to the portfolio's own weights still
issues a sell order. -/
def exC3 : Exchange :=
  { fee := 1/1000000000, min_order_size := 1, market := [[1]], current_step := 0,
    cash := 0, amounts := [1] }

/-- Concrete zero-fee state for the witness of the amended C3. -/
def exC3z : Exchange :=
  { fee := 0, min_order_size := 1, market := [[1]], current_step := 0,
    cash := 1, amounts := [1] }

lemma getD_set_self (l : List ℚ) {c : ℕ} (h : c < l.length) (v : ℚ) :
    (l.set c v).getD c 0 = v := by
  simp [List.getD_eq_getElem?_getD, List.getElem?_set_eq_of_lt _ h]

lemma getD_set_ne (l : List ℚ) {c i : ℕ} (h : c ≠ i) (v : ℚ) :
    (l.set c v).getD i 0 = l.getD i 0 := by
  simp [List.getD_eq_getElem?_getD, List.getElem?_set_ne h]

lemma getD_map_range (g : ℕ → ℚ) {n i : ℕ} (h : i < n) :
    ((List.range n).map g).getD i 0 = g i := by
  simp [List.getD_eq_getElem?_getD, List.getElem?_range h]

lemma list_range_map_sum (g : ℕ → ℚ) (n : ℕ) :
    ((List.range n).map g).sum = ∑ i ∈ Finset.range n, g i := by
  induction n with
  | zero => simp
  | succ n ih =>
    rw [List.range_succ, List.map_append, List.sum_append, Finset.sum_range_succ, ih]
    simp

lemma frame_refl (e : Exchange) : Frame e e := ⟨rfl, rfl, rfl, rfl, rfl⟩

lemma frame_trans {e1 e2 e3 : Exchange} (h : Frame e1 e2) (h' : Frame e2 e3) :
    Frame e1 e3 :=
  ⟨h'.1.trans h.1, h'.2.1.trans h.2.1, h'.2.2.1.trans h.2.2.1,
    h'.2.2.2.1.trans h.2.2.2.1, h'.2.2.2.2.trans h.2.2.2.2⟩

lemma close_of_frame {e e' : Exchange} (h : Frame e e') (c : ℕ) :
    close e' c = close e c := by
  unfold close; rw [h.2.2.1, h.2.2.2.1]

lemma buy_frame (e : Exchange) (c : ℕ) (q : ℚ) : Frame e (buy e c q).1 := by
  simp only [buy]
  split_ifs <;> first
    | exact ⟨rfl, rfl, rfl, rfl, List.length_set ..⟩
    | exact frame_refl e

lemma sell_frame (e : Exchange) (c : ℕ) (q : ℚ) : Frame e (sell e c q).1 := by
  simp only [sell]
  split_ifs <;> first
    | exact ⟨rfl, rfl, rfl, rfl, List.length_set ..⟩
    | exact frame_refl e

lemma buy_succ_state (e : Exchange) (c : ℕ) (q : ℚ) (h : (buy e c q).2 = 0) :
    (buy e c q).1
      = { e with cash := e.cash - close e c * q * (1 + e.fee / 100),
                 amounts := e.amounts.set c (e.amounts.getD c 0 + q) } := by
  simp only [buy] at h ⊢
  by_cases hR : ((if e.cash < close e c * q * (1 + e.fee / 100) then 1 else 0)
      + (if close e c * q < e.min_order_size then 2 else 0) : ℕ) = 0
  · rw [if_pos hR]
  · rw [if_neg hR] at h; exact absurd h hR

lemma sell_succ_state (e : Exchange) (c : ℕ) (q : ℚ) (h : (sell e c q).2 = 0) :
    (sell e c q).1
      = { e with amounts := e.amounts.set c (e.amounts.getD c 0 - q),
                 cash := e.cash + close e c * q * (1 - e.fee / 100) } := by
  simp only [sell] at h ⊢
  by_cases hR : ((if e.amounts.getD c 0 < q then 1 else 0)
      + (if close e c * q < e.min_order_size then 2 else 0) : ℕ) = 0
  · rw [if_pos hR]
  · rw [if_neg hR] at h; exact absurd h hR

lemma buy_fail_state (e : Exchange) (c : ℕ) (q : ℚ) (h : (buy e c q).2 ≠ 0) :
    (buy e c q).1 = e := by
  simp only [buy] at h ⊢
  by_cases hR : ((if e.cash < close e c * q * (1 + e.fee / 100) then 1 else 0)
      + (if close e c * q < e.min_order_size then 2 else 0) : ℕ) = 0
  · rw [if_pos hR] at h; exact absurd rfl h
  · rw [if_neg hR]

lemma sell_fail_state (e : Exchange) (c : ℕ) (q : ℚ) (h : (sell e c q).2 ≠ 0) :
    (sell e c q).1 = e := by
  simp only [sell] at h ⊢
  by_cases hR : ((if e.amounts.getD c 0 < q then 1 else 0)
      + (if close e c * q < e.min_order_size then 2 else 0) : ℕ) = 0
  · rw [if_pos hR] at h; exact absurd rfl h
  · rw [if_neg hR]

lemma of_buy_succ (e : Exchange) (c : ℕ) (q : ℚ) (h : (buy e c q).2 = 0) :
    close e c * q * (1 + e.fee / 100) ≤ e.cash := by
  by_contra hc
  push_neg at hc
  simp only [buy] at h
  rw [if_pos hc] at h
  by_cases h2 : close e c * q < e.min_order_size
  · rw [if_pos h2] at h; simp at h
  · rw [if_neg h2] at h; simp at h

lemma of_sell_succ (e : Exchange) (c : ℕ) (q : ℚ) (h : (sell e c q).2 = 0) :
    q ≤ e.amounts.getD c 0 := by
  by_contra hc
  push_neg at hc
  simp only [sell] at h
  rw [if_pos hc] at h
  by_cases h2 : close e c * q < e.min_order_size
  · rw [if_pos h2] at h; simp at h
  · rw [if_neg h2] at h; simp at h

lemma close_update (e : Exchange) (x : ℚ) (l : List ℚ) (i : ℕ) :
    close { e with cash := x, amounts := l } i = close e i := rfl

lemma getD_mem_of_lt {α : Type} (l : List α) (d : α) {n : ℕ} (h : n < l.length) :
    l.getD n d ∈ l := by
  rw [List.getD_eq_getElem?_getD, List.getElem?_eq_getElem h]
  exact List.getElem_mem ..

lemma getD_nonneg {l : List ℚ} (hl : ∀ a ∈ l, 0 ≤ a) (n : ℕ) : 0 ≤ l.getD n 0 := by
  by_cases h : n < l.length
  · exact hl _ (getD_mem_of_lt l 0 h)
  · rw [List.getD_eq_default l 0 (by omega)]

lemma close_nonneg {e : Exchange} (hm : ∀ s ∈ e.market, ∀ x ∈ s, 0 ≤ x) (c : ℕ) :
    0 ≤ close e c := by
  unfold close
  by_cases hc : c < e.market.length
  · exact getD_nonneg (hm _ (getD_mem_of_lt e.market [] hc)) e.current_step
  · rw [List.getD_eq_default e.market [] (by omega)]
    simp

lemma sum_set (l : List ℚ) {c : ℕ} (h : c < l.length) (v : ℚ) (g : ℕ → ℚ) :
    ∑ i ∈ Finset.range l.length, (l.set c v).getD i 0 * g i
      = (∑ i ∈ Finset.range l.length, l.getD i 0 * g i) + (v - l.getD c 0) * g c := by
  have hc : c ∈ Finset.range l.length := Finset.mem_range.mpr h
  rw [← Finset.add_sum_erase _ (fun i => (l.set c v).getD i 0 * g i) hc,
    ← Finset.add_sum_erase _ (fun i => l.getD i 0 * g i) hc]
  have he : ∑ i ∈ (Finset.range l.length).erase c, (l.set c v).getD i 0 * g i
      = ∑ i ∈ (Finset.range l.length).erase c, l.getD i 0 * g i :=
    Finset.sum_congr rfl (fun i hi => by
      rw [getD_set_ne _ (fun hh => (Finset.mem_erase.mp hi).1 hh.symm) _])
  rw [he, getD_set_self _ h]
  ring

lemma capital_buy_succ (e : Exchange) (c : ℕ) (q : ℚ) (hc : c < e.amounts.length)
    (h : (buy e c q).2 = 0) :
    capital (buy e c q).1 = capital e - close e c * q * (e.fee / 100) := by
  rw [buy_succ_state e c q h]
  unfold capital
  dsimp only
  simp only [close_update]
  rw [List.length_set, sum_set e.amounts hc _ (fun i => close e i)]
  ring

lemma capital_sell_succ (e : Exchange) (c : ℕ) (q : ℚ) (hc : c < e.amounts.length)
    (h : (sell e c q).2 = 0) :
    capital (sell e c q).1 = capital e - close e c * q * (e.fee / 100) := by
  rw [sell_succ_state e c q h]
  unfold capital
  dsimp only
  simp only [close_update]
  rw [List.length_set, sum_set e.amounts hc _ (fun i => close e i)]
  ring


lemma pvcLoop_stop (f : ℚ) (cur tgt : List ℚ) (fuel : ℕ) (p0 p1 : ℚ)
    (h : |p1 - p0| ≤ 1 / 10 ^ 10) : pvcLoop f cur tgt fuel p0 p1 = some p1 := by
  have h' : |p1 - p0| ≤ ((10 : ℚ) ^ 10)⁻¹ := by rwa [one_div] at h
  cases fuel <;> simp [pvcLoop, h']

lemma current_volume_eq (e : Exchange) :
    (e.cash :: (List.range e.amounts.length).map
        (fun i => e.amounts.getD i 0 * close e i)).sum = capital e := by
  rw [List.sum_cons, list_range_map_sum]; rfl

lemma fold_id {β : Type} (f : β → ℕ → β) :
    ∀ (L : List ℕ) (st : β), (∀ i ∈ L, f st i = st) → L.foldl f st = st := by
  intro L
  induction L with
  | nil => intro st _; rfl
  | cons a L ih =>
    intro st h
    rw [List.foldl_cons, h a (by simp)]
    exact ih st (fun i hi => h i (by simp [hi]))

lemma passes_at_target (e : Exchange) (tb : List ℚ)
    (htb : ∀ i, i < e.amounts.length → tb.getD i 0 = e.amounts.getD i 0) :
    sellPass tb e = (e, 0, []) ∧ buyPass tb e = (e, 0, []) := by
  constructor
  · unfold sellPass
    apply fold_id
    intro i hi
    have hi' := List.mem_range.mp hi
    simp only [sellStep]
    rw [htb i hi']
    rw [if_neg (by simp)]
  · unfold buyPass
    apply fold_id
    intro i hi
    have hi' := List.mem_range.mp hi
    simp only [buyStep]
    rw [htb i hi']
    rw [if_neg (by simp)]

lemma target_balance_self (e : Exchange) (hcap : capital e ≠ 0)
    (hp : ∀ i, i < e.amounts.length → close e i ≠ 0) (i : ℕ)
    (hi : i < e.amounts.length) :
    ((List.range e.amounts.length).map
        (fun j => capital e * (portfolio e).getD (j + 1) 0 / close e j)).getD i 0
      = e.amounts.getD i 0 := by
  rw [getD_map_range _ hi]
  unfold portfolio
  rw [List.getD_cons_succ, getD_map_range _ hi]
  have h1 := hp i hi
  field_simp

/-- C4: any call to buy or sell that returns a nonzero result code leaves the
whole exchange state, in particular every balance entry, unchanged. -/
theorem order_atomicity (e : Exchange) (c : ℕ) (q : ℚ) :
    ((buy e c q).2 ≠ 0 → (buy e c q).1 = e) ∧
    ((sell e c q).2 ≠ 0 → (sell e c q).1 = e) := by
  constructor
  · simp only [buy]; split_ifs <;> simp
  · simp only [sell]; split_ifs <;> simp

/-- C4 witness: a concrete failing buy (insufficient cash) and a concrete
failing sell (insufficient holdings) return nonzero and leave the state
unchanged. -/
theorem order_atomicity_witness :
    ((buy exC4 0 2).2 ≠ 0 ∧ (buy exC4 0 2).1 = exC4) ∧
    ((sell exC4 0 2).2 ≠ 0 ∧ (sell exC4 0 2).1 = exC4) := by
  have hb : (buy exC4 0 2).2 ≠ 0 := by norm_num [exC4, buy, close]
  have hs : (sell exC4 0 2).2 ≠ 0 := by norm_num [exC4, sell, close]
  exact ⟨⟨hb, (order_atomicity exC4 0 2).1 hb⟩, ⟨hs, (order_atomicity exC4 0 2).2 hs⟩⟩

/-- C6: the result code of buy is exactly the sum of the two independently
evaluated flags (+1 when the cost including fee exceeds cash, +2 when the
gross notional is strictly below the minimum order size), the result code of
sell is the analogous sum (+1 when the quantity exceeds the holding), and an
order whose gross notional equals the minimum order size exactly does not
trigger the +2 flag. -/
theorem result_code_formula (e : Exchange) (c : ℕ) (q : ℚ) :
    (buy e c q).2
      = (if e.cash < close e c * q * (1 + e.fee / 100) then 1 else 0)
        + (if close e c * q < e.min_order_size then 2 else 0) ∧
    (sell e c q).2
      = (if e.amounts.getD c 0 < q then 1 else 0)
        + (if close e c * q < e.min_order_size then 2 else 0) ∧
    (close e c * q = e.min_order_size →
      (buy e c q).2 ≤ 1 ∧ (sell e c q).2 ≤ 1) := by
  have hb : (buy e c q).2
      = (if e.cash < close e c * q * (1 + e.fee / 100) then 1 else 0)
        + (if close e c * q < e.min_order_size then 2 else 0) := by
    simp only [buy]
    by_cases h1 : e.cash < close e c * q * (1 + e.fee / 100)
    · by_cases h2 : close e c * q < e.min_order_size
      · rw [if_pos h1, if_pos h2]; norm_num
      · rw [if_pos h1, if_neg h2]; norm_num
    · by_cases h2 : close e c * q < e.min_order_size
      · rw [if_neg h1, if_pos h2]; norm_num
      · rw [if_neg h1, if_neg h2]; norm_num
  have hs : (sell e c q).2
      = (if e.amounts.getD c 0 < q then 1 else 0)
        + (if close e c * q < e.min_order_size then 2 else 0) := by
    simp only [sell]
    by_cases h1 : e.amounts.getD c 0 < q
    · by_cases h2 : close e c * q < e.min_order_size
      · rw [if_pos h1, if_pos h2]; norm_num
      · rw [if_pos h1, if_neg h2]; norm_num
    · by_cases h2 : close e c * q < e.min_order_size
      · rw [if_neg h1, if_pos h2]; norm_num
      · rw [if_neg h1, if_neg h2]; norm_num
  refine ⟨hb, hs, fun hmin => ?_⟩
  have h2 : ¬ close e c * q < e.min_order_size := by rw [hmin]; exact lt_irrefl _
  constructor
  · rw [hb, if_neg h2]; split <;> norm_num
  · rw [hs, if_neg h2]; split <;> norm_num

/-- C6 witness: at the exact minimum-order boundary neither result code
carries the +2 flag. -/
theorem result_code_formula_witness :
    close exC6 0 * 1 = exC6.min_order_size ∧
    (buy exC6 0 1).2 ≤ 1 ∧ (sell exC6 0 1).2 ≤ 1 := by
  have h : close exC6 0 * 1 = exC6.min_order_size := by norm_num [exC6, close]
  exact ⟨h, (result_code_formula exC6 0 1).2.2 h⟩

/-- C8: next_step advances the cursor by one and returns 0 strictly before
the last valid index; at the last valid index it returns 1 leaving the state
unchanged, and calling it again at that boundary again returns 1 with the
state unchanged. -/
theorem next_step_boundary (e : Exchange) :
    (e.current_step < (e.market.headD []).length - 1 →
      next_step e = ({ e with current_step := e.current_step + 1 }, 0)) ∧
    (e.current_step = (e.market.headD []).length - 1 →
      next_step e = (e, 1) ∧ next_step (next_step e).1 = (e, 1)) := by
  constructor
  · intro h; unfold next_step; rw [if_pos h]
  · intro h
    have hn : ¬ e.current_step < (e.market.headD []).length - 1 := by omega
    have h1 : next_step e = (e, 1) := by unfold next_step; rw [if_neg hn]
    exact ⟨h1, by rw [h1]; exact h1⟩

/-- C8 witness: with a two-candle series, the step from index 0 advances and
returns 0, while at index 1 the call returns 1 and is idempotent. -/
theorem next_step_boundary_witness :
    next_step exC8a = ({ exC8a with current_step := exC8a.current_step + 1 }, 0) ∧
    next_step exC8b = (exC8b, 1) ∧ next_step (next_step exC8b).1 = (exC8b, 1) := by
  constructor
  · exact (next_step_boundary exC8a).1 (by decide)
  · exact (next_step_boundary exC8b).2 (by decide)

/-- C9: a successful buy changes at most the cash entry and the bought
currency's entry: the market data, step cursor, fee, minimum order size and
every other balance entry are unchanged; likewise for a successful sell. -/
theorem order_frame (e : Exchange) (c : ℕ) (q : ℚ) :
    ((buy e c q).2 = 0 →
      (buy e c q).1.market = e.market ∧
      (buy e c q).1.current_step = e.current_step ∧
      (buy e c q).1.fee = e.fee ∧
      (buy e c q).1.min_order_size = e.min_order_size ∧
      ∀ i, i ≠ c → (buy e c q).1.amounts.getD i 0 = e.amounts.getD i 0) ∧
    ((sell e c q).2 = 0 →
      (sell e c q).1.market = e.market ∧
      (sell e c q).1.current_step = e.current_step ∧
      (sell e c q).1.fee = e.fee ∧
      (sell e c q).1.min_order_size = e.min_order_size ∧
      ∀ i, i ≠ c → (sell e c q).1.amounts.getD i 0 = e.amounts.getD i 0) := by
  constructor
  · intro _
    simp only [buy]
    split_ifs <;> first
      | exact ⟨rfl, rfl, rfl, rfl, fun i hi => getD_set_ne _ (Ne.symm hi) _⟩
      | exact ⟨rfl, rfl, rfl, rfl, fun i _ => rfl⟩
  · intro _
    simp only [sell]
    split_ifs <;> first
      | exact ⟨rfl, rfl, rfl, rfl, fun i hi => getD_set_ne _ (Ne.symm hi) _⟩
      | exact ⟨rfl, rfl, rfl, rfl, fun i _ => rfl⟩

/-- C9 witness: a concrete successful buy of currency 0 and a concrete
successful sell of currency 1 each leave the other balance entry and the
non-balance fields unchanged. -/
theorem order_frame_witness :
    ((buy exC9 0 1).2 = 0 ∧
      (buy exC9 0 1).1.market = exC9.market ∧
      (buy exC9 0 1).1.current_step = exC9.current_step ∧
      (buy exC9 0 1).1.fee = exC9.fee ∧
      (buy exC9 0 1).1.min_order_size = exC9.min_order_size ∧
      ∀ i, i ≠ 0 → (buy exC9 0 1).1.amounts.getD i 0 = exC9.amounts.getD i 0) ∧
    ((sell exC9 1 2).2 = 0 ∧
      (sell exC9 1 2).1.market = exC9.market ∧
      (sell exC9 1 2).1.current_step = exC9.current_step ∧
      (sell exC9 1 2).1.fee = exC9.fee ∧
      (sell exC9 1 2).1.min_order_size = exC9.min_order_size ∧
      ∀ i, i ≠ 1 → (sell exC9 1 2).1.amounts.getD i 0 = exC9.amounts.getD i 0) := by
  have hb : (buy exC9 0 1).2 = 0 := by norm_num [exC9, buy, close]
  have hs : (sell exC9 1 2).2 = 0 := by norm_num [exC9, sell, close]
  exact ⟨⟨hb, (order_frame exC9 0 1).1 hb⟩, ⟨hs, (order_frame exC9 1 2).2 hs⟩⟩

lemma sellStep_spec (e₀ : Exchange) (hf : 0 ≤ e₀.fee)
    (hp : ∀ i, i < e₀.amounts.length → 0 ≤ close e₀ i)
    (tb : List ℚ) (acc : Exchange × ℕ × List (ℕ × ℚ)) (i : ℕ)
    (hi : i < e₀.amounts.length) (hFr : Frame e₀ acc.1) :
    Frame e₀ (sellStep tb acc i).1 ∧ capital (sellStep tb acc i).1 ≤ capital acc.1 ∧
      (e₀.fee = 0 → capital (sellStep tb acc i).1 = capital acc.1) := by
  simp only [sellStep]
  split
  · rename_i h0
    have hci : i < acc.1.amounts.length := by rw [hFr.2.2.2.2]; exact hi
    have key : capital (sell acc.1 i (acc.1.amounts.getD i 0 - tb.getD i 0)).1
          ≤ capital acc.1 ∧
        (e₀.fee = 0 →
          capital (sell acc.1 i (acc.1.amounts.getD i 0 - tb.getD i 0)).1
            = capital acc.1) := by
      by_cases hs : (sell acc.1 i (acc.1.amounts.getD i 0 - tb.getD i 0)).2 = 0
      · rw [capital_sell_succ _ _ _ hci hs]
        have hcl : 0 ≤ close acc.1 i := by rw [close_of_frame hFr]; exact hp i hi
        have hfe : acc.1.fee = e₀.fee := hFr.1
        constructor
        · apply sub_le_self
          apply mul_nonneg (mul_nonneg hcl (le_of_lt h0))
          rw [hfe]
          exact div_nonneg hf (by norm_num)
        · intro hz; rw [hfe, hz]; ring
      · rw [sell_fail_state _ _ _ hs]
        exact ⟨le_refl _, fun _ => rfl⟩
    exact ⟨frame_trans hFr (sell_frame ..), key.1, key.2⟩
  · exact ⟨hFr, le_refl _, fun _ => rfl⟩

lemma buyStep_spec (e₀ : Exchange) (hf : 0 ≤ e₀.fee)
    (hp : ∀ i, i < e₀.amounts.length → 0 ≤ close e₀ i)
    (tb : List ℚ) (acc : Exchange × ℕ × List (ℕ × ℚ)) (i : ℕ)
    (hi : i < e₀.amounts.length) (hFr : Frame e₀ acc.1) :
    Frame e₀ (buyStep tb acc i).1 ∧ capital (buyStep tb acc i).1 ≤ capital acc.1 ∧
      (e₀.fee = 0 → capital (buyStep tb acc i).1 = capital acc.1) := by
  simp only [buyStep]
  split
  · rename_i h0
    have hci : i < acc.1.amounts.length := by rw [hFr.2.2.2.2]; exact hi
    have key : capital (buy acc.1 i (tb.getD i 0 - acc.1.amounts.getD i 0)).1
          ≤ capital acc.1 ∧
        (e₀.fee = 0 →
          capital (buy acc.1 i (tb.getD i 0 - acc.1.amounts.getD i 0)).1
            = capital acc.1) := by
      by_cases hs : (buy acc.1 i (tb.getD i 0 - acc.1.amounts.getD i 0)).2 = 0
      · rw [capital_buy_succ _ _ _ hci hs]
        have hcl : 0 ≤ close acc.1 i := by rw [close_of_frame hFr]; exact hp i hi
        have hfe : acc.1.fee = e₀.fee := hFr.1
        constructor
        · apply sub_le_self
          apply mul_nonneg (mul_nonneg hcl (le_of_lt h0))
          rw [hfe]
          exact div_nonneg hf (by norm_num)
        · intro hz; rw [hfe, hz]; ring
      · rw [buy_fail_state _ _ _ hs]
        exact ⟨le_refl _, fun _ => rfl⟩
    exact ⟨frame_trans hFr (buy_frame ..), key.1, key.2⟩
  · exact ⟨hFr, le_refl _, fun _ => rfl⟩

lemma fold_pass_le (e₀ : Exchange)
    (step : (Exchange × ℕ × List (ℕ × ℚ)) → ℕ → Exchange × ℕ × List (ℕ × ℚ))
    (hstep : ∀ acc i, i < e₀.amounts.length → Frame e₀ acc.1 →
      Frame e₀ (step acc i).1 ∧ capital (step acc i).1 ≤ capital acc.1 ∧
        (e₀.fee = 0 → capital (step acc i).1 = capital acc.1)) :
    ∀ (L : List ℕ) (acc : Exchange × ℕ × List (ℕ × ℚ)),
      (∀ i ∈ L, i < e₀.amounts.length) → Frame e₀ acc.1 →
      Frame e₀ (L.foldl step acc).1 ∧ capital (L.foldl step acc).1 ≤ capital acc.1 ∧
        (e₀.fee = 0 → capital (L.foldl step acc).1 = capital acc.1) := by
  intro L
  induction L with
  | nil => intro acc _ hFr; exact ⟨hFr, le_refl _, fun _ => rfl⟩
  | cons a L ih =>
    intro acc hL hFr
    have h1 := hstep acc a (hL a (by simp)) hFr
    have h2 := ih (step acc a) (fun i hi => hL i (by simp [hi])) h1.1
    rw [List.foldl_cons]
    exact ⟨h2.1, h2.2.1.trans h1.2.1, fun hz => (h2.2.2 hz).trans (h1.2.2 hz)⟩

lemma rebalance_exec_capital (e : Exchange) (hf : 0 ≤ e.fee)
    (hp : ∀ i, i < e.amounts.length → 0 ≤ close e i) (tb : List ℚ) :
    capital (buyPass tb (sellPass tb e).1).1 ≤ capital e ∧
      (e.fee = 0 → capital (buyPass tb (sellPass tb e).1).1 = capital e) := by
  have hs : Frame e (sellPass tb e).1 ∧ capital (sellPass tb e).1 ≤ capital e ∧
      (e.fee = 0 → capital (sellPass tb e).1 = capital e) :=
    fold_pass_le e (sellStep tb) (sellStep_spec e hf hp tb)
      (List.range e.amounts.length) (e, 0, [])
      (fun i hi => List.mem_range.mp hi) (frame_refl e)
  have hlen : (sellPass tb e).1.amounts.length = e.amounts.length := hs.1.2.2.2.2
  have hbb : Frame e (buyPass tb (sellPass tb e).1).1 ∧
      capital (buyPass tb (sellPass tb e).1).1 ≤ capital (sellPass tb e).1 ∧
      (e.fee = 0 →
        capital (buyPass tb (sellPass tb e).1).1 = capital (sellPass tb e).1) :=
    fold_pass_le e (buyStep tb) (buyStep_spec e hf hp tb)
      (List.range (sellPass tb e).1.amounts.length) ((sellPass tb e).1, 0, [])
      (fun i hi => by
        have h' := List.mem_range.mp hi
        rw [hlen] at h'
        exact h')
      hs.1
  constructor
  · exact le_trans hbb.2.1 hs.2.1
  · intro hz; exact (hbb.2.2 hz).trans (hs.2.2 hz)

/-- C1: for an exchange state with non-negative fee and non-negative close
prices, positive capital and a non-negative target weight vector summing
to 1, whenever make_portfolio terminates the capital after the call is at
most the capital before it, with exact equality when the fee parameter
is 0. -/
theorem make_portfolio_capital (e : Exchange) (tgt : List ℚ) (fuel : ℕ)
    (e' : Exchange) (code : ℕ) (os : List (ℕ × ℚ))
    (hf : 0 ≤ e.fee) (hp : ∀ i, i < e.amounts.length → 0 ≤ close e i)
    (hcap : 0 < capital e) (htgt : ∀ w ∈ tgt, 0 ≤ w) (hsum : tgt.sum = 1)
    (h : make_portfolio fuel e tgt = some (e', code, os)) :
    capital e' ≤ capital e ∧ (e.fee = 0 → capital e' = capital e) := by
  simp only [make_portfolio] at h
  rw [Option.map_eq_some'] at h
  obtain ⟨pvc, hpvc, hr⟩ := h
  have h1 := congrArg Prod.fst hr
  dsimp only at h1
  rw [← h1]
  exact rebalance_exec_capital e hf hp _

/-- C7: with the fee parameter equal to 0, a successful buy followed at the
same step by a successful sell of the same quantity restores cash exactly. -/
theorem zero_fee_round_trip (e : Exchange) (c : ℕ) (q : ℚ) (hfee : e.fee = 0)
    (hb : (buy e c q).2 = 0) (hs : (sell (buy e c q).1 c q).2 = 0) :
    (sell (buy e c q).1 c q).1.cash = e.cash := by
  rw [sell_succ_state _ _ _ hs]
  simp only [buy_succ_state _ _ _ hb, hfee, close]
  ring

lemma buy_keeps_nonneg (e : Exchange) (c : ℕ) (q : ℚ) (hq : 0 ≤ q)
    (hcash : 0 ≤ e.cash) (hamt : ∀ a ∈ e.amounts, 0 ≤ a) :
    0 ≤ (buy e c q).1.cash ∧ ∀ a ∈ (buy e c q).1.amounts, 0 ≤ a := by
  by_cases h : (buy e c q).2 = 0
  · have hwf := of_buy_succ e c q h
    rw [buy_succ_state e c q h]
    dsimp only
    constructor
    · linarith
    · intro a ha
      rcases List.mem_or_eq_of_mem_set ha with h' | h'
      · exact hamt a h'
      · rw [h']
        have := getD_nonneg hamt c
        linarith
  · rw [buy_fail_state e c q h]; exact ⟨hcash, hamt⟩

lemma sell_keeps_nonneg (e : Exchange) (c : ℕ) (q : ℚ) (hq : 0 ≤ q)
    (hf : e.fee ≤ 100) (hm : ∀ s ∈ e.market, ∀ x ∈ s, 0 ≤ x)
    (hcash : 0 ≤ e.cash) (hamt : ∀ a ∈ e.amounts, 0 ≤ a) :
    0 ≤ (sell e c q).1.cash ∧ ∀ a ∈ (sell e c q).1.amounts, 0 ≤ a := by
  by_cases h : (sell e c q).2 = 0
  · have hql := of_sell_succ e c q h
    rw [sell_succ_state e c q h]
    dsimp only
    constructor
    · have hcl : 0 ≤ close e c := close_nonneg hm c
      have hpr : 0 ≤ close e c * q * (1 - e.fee / 100) := by
        apply mul_nonneg (mul_nonneg hcl hq)
        have : e.fee / 100 ≤ 1 := by linarith
        linarith
      linarith
    · intro a ha
      rcases List.mem_or_eq_of_mem_set ha with h' | h'
      · exact hamt a h'
      · rw [h']; linarith
  · rw [sell_fail_state e c q h]; exact ⟨hcash, hamt⟩

/-- C5: from any state with fee at most 100 percent, non-negative market
prices, non-negative cash and non-negative holdings (in particular the
construction state with zero holdings), any sequence of buy and sell calls
with positive quantities, successful or not, keeps every balance entry
non-negative. -/
theorem balance_nonneg (e : Exchange) (ts : List (Bool × ℕ × ℚ))
    (hf : e.fee ≤ 100) (hm : ∀ s ∈ e.market, ∀ x ∈ s, 0 ≤ x)
    (hcash : 0 ≤ e.cash) (hamt : ∀ a ∈ e.amounts, 0 ≤ a)
    (hq : ∀ t ∈ ts, 0 < t.2.2) :
    0 ≤ (ts.foldl applyTrade e).cash ∧
      ∀ a ∈ (ts.foldl applyTrade e).amounts, 0 ≤ a := by
  induction ts generalizing e with
  | nil => exact ⟨hcash, hamt⟩
  | cons t ts ih =>
    rw [List.foldl_cons]
    have ht := hq t (by simp)
    have hstep : (0 ≤ (applyTrade e t).cash ∧ ∀ a ∈ (applyTrade e t).amounts, 0 ≤ a)
        ∧ Frame e (applyTrade e t) := by
      unfold applyTrade
      by_cases hbb : t.1 = true
      · rw [if_pos hbb]
        exact ⟨buy_keeps_nonneg e t.2.1 t.2.2 (le_of_lt ht) hcash hamt, buy_frame ..⟩
      · rw [if_neg hbb]
        exact ⟨sell_keeps_nonneg e t.2.1 t.2.2 (le_of_lt ht) hf hm hcash hamt,
          sell_frame ..⟩
    apply ih
    · rw [hstep.2.1]; exact hf
    · rw [hstep.2.2.2.1]; exact hm
    · exact hstep.1.1
    · exact hstep.1.2
    · intro t' ht'; exact hq t' (by simp [ht'])

/-- C10: next_step decides end of data from the length of the first configured
currency's series alone: it returns 1 (with the state unchanged) exactly when
the cursor is at least that length minus one; consequently with mismatched
series lengths the cursor can advance past the end of a shorter series. -/
theorem next_step_first_series :
    (∀ e : Exchange,
      ((next_step e).2 = 1 ↔ ((e.market.headD []).length : ℤ) - 1 ≤ e.current_step) ∧
      ((next_step e).2 = 1 → (next_step e).1 = e)) ∧
    (∃ e : Exchange, (next_step e).2 = 0 ∧
      (e.market.getD 1 []).length ≤ (next_step e).1.current_step) := by
  constructor
  · intro e
    constructor
    · unfold next_step; split
      · rename_i h
        constructor
        · intro h01; exact absurd h01 (by simp)
        · intro hle; exfalso; omega
      · rename_i h
        constructor
        · intro _; omega
        · intro _; rfl
    · unfold next_step; split
      · intro h01; exact absurd h01 (by simp)
      · intro _; rfl
  · exact ⟨exC10a, by decide, by decide⟩

/-- C10 witness: at the last index of the first series, next_step reports end
of data and leaves the state unchanged. -/
theorem next_step_first_series_witness :
    (next_step exC10).2 = 1 ∧ (next_step exC10).1 = exC10 := by
  have h := next_step_first_series.1 exC10
  have h1 : (next_step exC10).2 = 1 := h.1.mpr (by decide)
  exact ⟨h1, h.2 h1⟩

/-- C1 witness: a concrete zero-fee rebalance from equal holdings to the
half-half target terminates with capital unchanged. -/
theorem make_portfolio_capital_witness :
    (0 : ℚ) ≤ exC1.fee ∧ (∀ i, i < exC1.amounts.length → 0 ≤ close exC1 i) ∧
    0 < capital exC1 ∧ (∀ w ∈ ([1/2, 1/2] : List ℚ), 0 ≤ w) ∧
    ([1/2, 1/2] : List ℚ).sum = 1 ∧
    make_portfolio 0 exC1 [1/2, 1/2] = some (exC1, 0, []) ∧
    capital exC1 ≤ capital exC1 ∧ (exC1.fee = 0 → capital exC1 = capital exC1) := by
  have h1 : (0 : ℚ) ≤ exC1.fee := by norm_num [exC1]
  have h2 : ∀ i, i < exC1.amounts.length → 0 ≤ close exC1 i := by
    intro i hi
    have h0 : i = 0 := by
      have : exC1.amounts.length = 1 := by norm_num [exC1]
      omega
    subst h0
    norm_num [exC1, close]
  have h3 : 0 < capital exC1 := by
    norm_num [capital, exC1, close, Finset.sum_range_succ]
  have h4 : ∀ w ∈ ([1/2, 1/2] : List ℚ), 0 ≤ w := by norm_num
  have h5 : ([1/2, 1/2] : List ℚ).sum = 1 := by norm_num
  have h6 : make_portfolio 0 exC1 [1/2, 1/2] = some (exC1, 0, []) := by
    norm_num [make_portfolio, pvcLoop, sellPass, buyPass, sellStep, buyStep,
      sell, buy, close, exC1, List.range_succ]
  exact ⟨h1, h2, h3, h4, h5, h6,
    make_portfolio_capital exC1 [1/2, 1/2] 0 exC1 0 [] h1 h2 h3 h4 h5 h6⟩

/-- C5 witness: a concrete buy followed by a sell at 1 percent fee keeps cash
and the holding non-negative. -/
theorem balance_nonneg_witness :
    exC5.fee ≤ 100 ∧ (∀ s ∈ exC5.market, ∀ x ∈ s, 0 ≤ x) ∧ 0 ≤ exC5.cash ∧
    (∀ a ∈ exC5.amounts, 0 ≤ a) ∧ (∀ t ∈ tsC5, 0 < t.2.2) ∧
    0 ≤ (tsC5.foldl applyTrade exC5).cash ∧
    ∀ a ∈ (tsC5.foldl applyTrade exC5).amounts, 0 ≤ a := by
  have h1 : exC5.fee ≤ 100 := by decide
  have h2 : ∀ s ∈ exC5.market, ∀ x ∈ s, 0 ≤ x := by decide
  have h3 : 0 ≤ exC5.cash := by decide
  have h4 : ∀ a ∈ exC5.amounts, 0 ≤ a := by decide
  have h5 : ∀ t ∈ tsC5, 0 < t.2.2 := by decide
  have h := balance_nonneg exC5 tsC5 h1 h2 h3 h4 h5
  exact ⟨h1, h2, h3, h4, h5, h.1, h.2⟩

/-- C7 witness: buying two units then selling them at zero fee restores the
cash balance exactly. -/
theorem zero_fee_round_trip_witness :
    exC7.fee = 0 ∧ (buy exC7 0 2).2 = 0 ∧ (sell (buy exC7 0 2).1 0 2).2 = 0 ∧
    (sell (buy exC7 0 2).1 0 2).1.cash = exC7.cash := by
  have h1 : exC7.fee = 0 := rfl
  have h2 : (buy exC7 0 2).2 = 0 := by norm_num [exC7, buy, close]
  have h3 : (sell (buy exC7 0 2).1 0 2).2 = 0 := by
    norm_num [exC7, buy, sell, close]
  exact ⟨h1, h2, h3, zero_fee_round_trip exC7 0 2 h1 h2 h3⟩

/-- C3 counterexample: a state with positive capital where rebalancing to the
portfolio's own current weights issues a sell order of strictly positive
quantity (the fixed-point loop stops strictly below pvc = 1 whenever the fee
is positive, so the computed target balance undershoots the holding). -/
theorem rebalance_idempotent_cex :
    0 < capital exC3 ∧
    (make_portfolio 1 exC3 (portfolio exC3)).map (fun r => r.2.2)
      = some [(0, 199999999999/10000000000000000000000)] ∧
    (0 : ℚ) < 199999999999/10000000000000000000000 := by
  refine ⟨?_, ?_, by norm_num⟩
  · norm_num [capital, exC3, close, Finset.sum_range_succ]
  · norm_num [make_portfolio, portfolio, capital, pvcLoop, sellPass, buyPass,
      sellStep, buyStep, sell, buy, close, exC3, List.range_succ, Finset.sum_range_succ,
      abs_le]

/-- C3 (amended): when the fee parameter is 0 and capital and all close
prices are positive, make_portfolio applied to the exchange's own current
portfolio weights issues no order at all. -/
theorem rebalance_idempotent_zero_fee (e : Exchange) (fuel : ℕ) (hfee : e.fee = 0)
    (hcap : 0 < capital e) (hp : ∀ i, i < e.amounts.length → 0 < close e i) :
    ∃ r, make_portfolio fuel e (portfolio e) = some r ∧ r.2.2 = [] := by
  have hf0 : e.fee / 100 = 0 := by rw [hfee]; norm_num
  have harith : (1 : ℚ) - 2 * 0 + 0 ^ 2 = 1 := by norm_num
  have hcap' : capital e ≠ 0 := ne_of_gt hcap
  simp only [make_portfolio, hf0, harith, current_volume_eq]
  rw [pvcLoop_stop _ _ _ fuel 1 1 (by norm_num)]
  simp only [Option.map_some']
  refine ⟨_, rfl, ?_⟩
  dsimp only
  simp only [mul_one]
  have hpass := passes_at_target e _
    (fun i hi => target_balance_self e hcap' (fun j hj => ne_of_gt (hp j hj)) i hi)
  rw [hpass.1]
  dsimp only
  rw [hpass.2]
  simp

/-- C3 (amended) witness: a concrete zero-fee state where rebalancing to the
own portfolio issues no order. -/
theorem rebalance_idempotent_zero_fee_witness :
    exC3z.fee = 0 ∧ 0 < capital exC3z ∧
    (∀ i, i < exC3z.amounts.length → 0 < close exC3z i) ∧
    ∃ r, make_portfolio 1 exC3z (portfolio exC3z) = some r ∧ r.2.2 = [] := by
  have h1 : exC3z.fee = 0 := rfl
  have h2 : 0 < capital exC3z := by
    norm_num [capital, exC3z, close, Finset.sum_range_succ]
  have h3 : ∀ i, i < exC3z.amounts.length → 0 < close exC3z i := by
    intro i hi
    have h0 : i = 0 := by
      have : exC3z.amounts.length = 1 := by norm_num [exC3z]
      omega
    subst h0
    norm_num [exC3z, close]
  exact ⟨h1, h2, h3, rebalance_idempotent_zero_fee exC3z 1 h1 h2 h3⟩

lemma pvcLoop_zero (f : ℚ) (cur tgt : List ℚ) (p0 p1 : ℚ) :
    pvcLoop f cur tgt 0 p0 p1
      = if |p1 - p0| ≤ 1 / 10 ^ 10 then some p1 else none := rfl

lemma pvcLoop_succ (f : ℚ) (cur tgt : List ℚ) (fuel : ℕ) (p0 p1 : ℚ) :
    pvcLoop f cur tgt (fuel + 1) p0 p1
      = if |p1 - p0| ≤ 1 / 10 ^ 10 then some p1
        else pvcLoop f cur tgt fuel p1 (pvcStep f cur tgt p1) := rfl

lemma headD_bounds {l : List ℚ} (h : ∀ x ∈ l, 0 ≤ x ∧ x ≤ 1) :
    0 ≤ l.headD 0 ∧ l.headD 0 ≤ 1 := by
  cases l with
  | nil => norm_num
  | cons a l => exact h a (by simp)

lemma sum_head_tail (l : List ℚ) : l.sum = l.headD 0 + (l.drop 1).sum := by
  cases l <;> simp

lemma tail_mem {l : List ℚ} {x : ℚ} (hx : x ∈ l.drop 1) : x ∈ l := by
  cases l with
  | nil => simp at hx
  | cons a l => exact List.mem_cons_of_mem _ (by simpa using hx)

lemma sumMax_nil_left (ts : List ℚ) (p : ℚ) : sumMax [] ts p = 0 := rfl

lemma sumMax_nil_right (c : ℚ) (cs : List ℚ) (p : ℚ) : sumMax (c :: cs) [] p = 0 := rfl

lemma sumMax_cons (c t : ℚ) (cs ts : List ℚ) (p : ℚ) :
    sumMax (c :: cs) (t :: ts) p = max (c - p * t) 0 + sumMax cs ts p := by
  simp [sumMax]

lemma sumMax_nonneg (cs ts : List ℚ) (p : ℚ) : 0 ≤ sumMax cs ts p := by
  apply List.sum_nonneg
  intro x hx
  obtain ⟨ct, _, rfl⟩ := List.mem_map.mp hx
  exact le_max_right _ _

lemma sumMax_le_sum :
    ∀ (cs ts : List ℚ), (∀ x ∈ cs, 0 ≤ x) → (∀ x ∈ ts, 0 ≤ x) → ∀ p : ℚ, 0 ≤ p →
      sumMax cs ts p ≤ cs.sum := by
  intro cs
  induction cs with
  | nil => intro ts _ _ p _; rw [sumMax_nil_left]; rfl
  | cons c cs ih =>
    intro ts hcs hts p hp
    have hc : 0 ≤ c := hcs c (by simp)
    have hcs' : ∀ x ∈ cs, 0 ≤ x := fun x hx => hcs x (by simp [hx])
    cases ts with
    | nil =>
      rw [sumMax_nil_right, List.sum_cons]
      have : 0 ≤ cs.sum := List.sum_nonneg hcs'
      linarith
    | cons t ts =>
      have ht : 0 ≤ t := hts t (by simp)
      have hts' : ∀ x ∈ ts, 0 ≤ x := fun x hx => hts x (by simp [hx])
      rw [sumMax_cons, List.sum_cons]
      have h1 : max (c - p * t) 0 ≤ c := by
        apply max_le _ hc
        have : 0 ≤ p * t := mul_nonneg hp ht
        linarith
      have h2 := ih ts hcs' hts' p hp
      linarith

lemma sumMax_lipschitz :
    ∀ (cs ts : List ℚ), (∀ x ∈ ts, 0 ≤ x) → ∀ p q : ℚ,
      |sumMax cs ts p - sumMax cs ts q| ≤ ts.sum * |p - q| := by
  intro cs
  induction cs with
  | nil =>
    intro ts hts p q
    rw [sumMax_nil_left, sumMax_nil_left]
    simp only [sub_self, abs_zero]
    exact mul_nonneg (List.sum_nonneg hts) (abs_nonneg _)
  | cons c cs ih =>
    intro ts hts p q
    cases ts with
    | nil =>
      rw [sumMax_nil_right, sumMax_nil_right]
      simp
    | cons t ts =>
      have ht : 0 ≤ t := hts t (by simp)
      have hts' : ∀ x ∈ ts, 0 ≤ x := fun x hx => hts x (by simp [hx])
      rw [sumMax_cons, sumMax_cons, List.sum_cons]
      have h1 : |max (c - p * t) 0 - max (c - q * t) 0| ≤ t * |p - q| := by
        have h0 := abs_max_sub_max_le_abs (c - p * t) (c - q * t) 0
        have h2 : |(c - p * t) - (c - q * t)| = t * |p - q| := by
          rw [show (c - p * t) - (c - q * t) = t * (q - p) by ring, abs_mul,
            abs_of_nonneg ht, abs_sub_comm]
        rw [h2] at h0
        exact h0
      have h3 := ih ts hts' p q
      calc |(max (c - p * t) 0 + sumMax cs ts p) - (max (c - q * t) 0 + sumMax cs ts q)|
          = |(max (c - p * t) 0 - max (c - q * t) 0)
              + (sumMax cs ts p - sumMax cs ts q)| := by ring_nf
        _ ≤ |max (c - p * t) 0 - max (c - q * t) 0|
              + |sumMax cs ts p - sumMax cs ts q| := abs_add _ _
        _ ≤ t * |p - q| + ts.sum * |p - q| := by linarith
        _ = (t + ts.sum) * |p - q| := by ring

lemma pvcStep_lipschitz (f : ℚ) (cur tgt : List ℚ)
    (hf0 : 0 ≤ f) (hf1 : f ≤ 1/100)
    (htgt : ∀ x ∈ tgt, 0 ≤ x ∧ x ≤ 1) (hts : tgt.sum = 1) (p q : ℚ) :
    |pvcStep f cur tgt p - pvcStep f cur tgt q| ≤ (1/49) * |p - q| := by
  have ht0 := headD_bounds htgt
  have hD : (99:ℚ)/100 ≤ 1 - f * tgt.headD 0 := by nlinarith [ht0.1, ht0.2]
  have hDpos : (0:ℚ) < 1 - f * tgt.headD 0 := by linarith
  have hTnn : 0 ≤ (tgt.drop 1).sum :=
    List.sum_nonneg (fun x hx => (htgt x (tail_mem hx)).1)
  have hT1 : (tgt.drop 1).sum ≤ 1 := by
    have := sum_head_tail tgt
    rw [hts] at this
    linarith [ht0.1]
  have hB0 : (0:ℚ) ≤ 2 * f - f ^ 2 := by nlinarith
  have hB1 : 2 * f - f ^ 2 ≤ 1/50 := by nlinarith
  have key : pvcStep f cur tgt p - pvcStep f cur tgt q
      = (2 * f - f ^ 2)
        * (sumMax (cur.drop 1) (tgt.drop 1) q - sumMax (cur.drop 1) (tgt.drop 1) p)
        / (1 - f * tgt.headD 0) := by
    unfold pvcStep
    rw [div_sub_div_same]
    congr 1
    ring
  have hS := sumMax_lipschitz (cur.drop 1) (tgt.drop 1)
    (fun x hx => (htgt x (tail_mem hx)).1) p q
  rw [key, abs_div, abs_mul, abs_of_pos hDpos, abs_of_nonneg hB0]
  rw [div_le_iff hDpos]
  have hSq : |sumMax (cur.drop 1) (tgt.drop 1) q - sumMax (cur.drop 1) (tgt.drop 1) p|
      ≤ (tgt.drop 1).sum * |p - q| := by
    rw [abs_sub_comm]
    exact hS
  have habs : (0:ℚ) ≤ |p - q| := abs_nonneg _
  have hstep1 : (2 * f - f ^ 2)
        * |sumMax (cur.drop 1) (tgt.drop 1) q - sumMax (cur.drop 1) (tgt.drop 1) p|
      ≤ (1/50) * ((tgt.drop 1).sum * |p - q|) :=
    mul_le_mul hB1 hSq (abs_nonneg _) (by norm_num)
  have hstep2 : (tgt.drop 1).sum * |p - q| ≤ |p - q| := by
    nlinarith [mul_nonneg (by linarith : (0:ℚ) ≤ 1 - (tgt.drop 1).sum) habs]
  have hR : (1/49) * |p - q| * (99/100) ≤ (1/49) * |p - q| * (1 - f * tgt.headD 0) := by
    apply mul_le_mul_of_nonneg_left hD
    positivity
  linarith [hstep1, hstep2, hR]

lemma pvcStep_bounds (f : ℚ) (cur tgt : List ℚ)
    (hf0 : 0 ≤ f) (hf1 : f ≤ 1/100)
    (hcur : ∀ x ∈ cur, 0 ≤ x ∧ x ≤ 1) (hcs : cur.sum = 1)
    (htgt : ∀ x ∈ tgt, 0 ≤ x ∧ x ≤ 1) (hts : tgt.sum = 1)
    (p : ℚ) (hp : 0 ≤ p) :
    1 - 3 * f ≤ pvcStep f cur tgt p ∧ pvcStep f cur tgt p ≤ 100/99 := by
  have hc0 := headD_bounds hcur
  have ht0 := headD_bounds htgt
  have hD : (99:ℚ)/100 ≤ 1 - f * tgt.headD 0 := by nlinarith [ht0.1, ht0.2]
  have hDpos : (0:ℚ) < 1 - f * tgt.headD 0 := by linarith
  have hD1 : 1 - f * tgt.headD 0 ≤ 1 := by nlinarith [ht0.1]
  have hSnn := sumMax_nonneg (cur.drop 1) (tgt.drop 1) p
  have hCtail : (cur.drop 1).sum ≤ 1 := by
    have := sum_head_tail cur
    rw [hcs] at this
    linarith [hc0.1]
  have hS1 : sumMax (cur.drop 1) (tgt.drop 1) p ≤ 1 := by
    have := sumMax_le_sum (cur.drop 1) (tgt.drop 1)
      (fun x hx => (hcur x (tail_mem hx)).1)
      (fun x hx => (htgt x (tail_mem hx)).1) p hp
    linarith
  have hB0 : (0:ℚ) ≤ 2 * f - f ^ 2 := by nlinarith
  have hB1 : 2 * f - f ^ 2 ≤ 2 * f := by nlinarith
  have hN1 : 1 - f * cur.headD 0
      - (2 * f - f ^ 2) * sumMax (cur.drop 1) (tgt.drop 1) p ≤ 1 := by
    nlinarith [hc0.1, mul_nonneg hB0 hSnn]
  have hN0 : 1 - 3 * f ≤ 1 - f * cur.headD 0
      - (2 * f - f ^ 2) * sumMax (cur.drop 1) (tgt.drop 1) p := by
    nlinarith [hc0.2, mul_le_mul hB1 hS1 hSnn (by linarith : (0:ℚ) ≤ 2 * f)]
  have hNnn : (0:ℚ) ≤ 1 - f * cur.headD 0
      - (2 * f - f ^ 2) * sumMax (cur.drop 1) (tgt.drop 1) p := by linarith
  unfold pvcStep
  constructor
  · rw [le_div_iff hDpos]
    nlinarith
  · rw [div_le_iff hDpos]
    nlinarith

lemma pvcLoop_conv (f : ℚ) (cur tgt : List ℚ)
    (hLip : ∀ p q : ℚ, |pvcStep f cur tgt p - pvcStep f cur tgt q| ≤ (1/49) * |p - q|) :
    ∀ (k : ℕ) (c p0 p1 : ℚ), |pvcStep f cur tgt p1 - p1| ≤ c →
      c * (1/49) ^ k ≤ 1 / 10 ^ 10 →
      (pvcLoop f cur tgt (k + 1) p0 p1).isSome = true := by
  intro k
  induction k with
  | zero =>
    intro c p0 p1 hG hc
    rw [pvcLoop_succ]
    by_cases h : |p1 - p0| ≤ 1 / 10 ^ 10
    · rw [if_pos h]; rfl
    · rw [if_neg h, pvcLoop_zero]
      rw [if_pos (le_trans hG (by simpa using hc))]
      rfl
  | succ k ih =>
    intro c p0 p1 hG hc
    rw [pvcLoop_succ]
    by_cases h : |p1 - p0| ≤ 1 / 10 ^ 10
    · rw [if_pos h]; rfl
    · rw [if_neg h]
      apply ih (c * (1/49)) p1 (pvcStep f cur tgt p1)
      · calc |pvcStep f cur tgt (pvcStep f cur tgt p1) - pvcStep f cur tgt p1|
            ≤ (1/49) * |pvcStep f cur tgt p1 - p1| := hLip _ _
          _ ≤ (1/49) * c := by
              apply mul_le_mul_of_nonneg_left hG
              norm_num
          _ = c * (1/49) := mul_comm _ _
      · calc (c * (1/49)) * (1/49) ^ k = c * (1/49) ^ (k + 1) := by ring
          _ ≤ 1 / 10 ^ 10 := hc

/-- C2: for fee rates 0, 0.001 and 0.01 and weight vectors with entries in
the unit interval summing to 1, the pvc fixed-point loop of make_portfolio,
started from pvc0 = 1 and pvc1 = 1 - 2 fee + fee squared, reaches the exit
tolerance 1e-10 after finitely many iterations. -/
theorem pvc_loop_terminates (f : ℚ) (cur tgt : List ℚ)
    (hf : f = 0 ∨ f = 1/1000 ∨ f = 1/100)
    (hcur : ∀ x ∈ cur, 0 ≤ x ∧ x ≤ 1) (hcs : cur.sum = 1)
    (htgt : ∀ x ∈ tgt, 0 ≤ x ∧ x ≤ 1) (hts : tgt.sum = 1) :
    ∃ n, (pvcLoop f cur tgt n 1 (1 - 2 * f + f ^ 2)).isSome = true := by
  have hf0 : 0 ≤ f := by rcases hf with h | h | h <;> rw [h] <;> norm_num
  have hf1 : f ≤ 1/100 := by rcases hf with h | h | h <;> rw [h] <;> norm_num
  have hp1 : 0 ≤ 1 - 2 * f + f ^ 2 := by nlinarith
  have hbounds := pvcStep_bounds f cur tgt hf0 hf1 hcur hcs htgt hts
    (1 - 2 * f + f ^ 2) hp1
  have hG : |pvcStep f cur tgt (1 - 2 * f + f ^ 2) - (1 - 2 * f + f ^ 2)| ≤ 1/10 := by
    rw [abs_le]
    constructor <;> nlinarith [hbounds.1, hbounds.2]
  refine ⟨7, ?_⟩
  exact pvcLoop_conv f cur tgt
    (pvcStep_lipschitz f cur tgt hf0 hf1 htgt hts) 6 (1/10) 1
    (1 - 2 * f + f ^ 2) hG (by norm_num)

/-- C2 witness: at fee rate 0.01 with the half-half current and target
weights the loop terminates. -/
theorem pvc_loop_terminates_witness :
    ∃ n, (pvcLoop (1/100) [1/2, 1/2] [1/2, 1/2] n 1
      (1 - 2 * (1/100) + (1/100) ^ 2)).isSome = true := by
  apply pvc_loop_terminates (1/100) [1/2, 1/2] [1/2, 1/2]
  · norm_num
  · intro x hx
    simp at hx
    subst hx
    norm_num
  · norm_num
  · intro x hx
    simp at hx
    subst hx
    norm_num
  · norm_num

end Xchg
